import Mathlib

/-
  Verification of the hybrid elimination core of
  gtsam/hybrid/GaussianHybridFactorGraph.cpp: the aggregate combinator
  (operator+= on Sum, GaussianHybridFactorGraph::sum), the discretizer
  (GaussianHybridFactorGraph::toDecisionTreeFactor) and the hybrid
  eliminator (EliminateHybrid).

  External collaborators that are declared outside the source file
  (the DecisionTree primitive, the linear layer, the continuous and
  discrete elimination oracles, HybridFactorGraph::discreteKeys,
  GaussianFactorGraph::probPrime) are modelled from the spec; each such
  definition carries a doc comment starting with "Modelled from the spec:".
-/

namespace gtsam

/-- Continuous and discrete variables share one global key namespace. -/
abbrev Key := Nat

/-- DiscreteKey: identifier plus cardinality of a discrete variable. -/
structure DiscreteKey where
  key : Key
  card : Nat
deriving DecidableEq

/-- An assignment of one value to every discrete key; restricted to a tree's
own key set it names one hypothesis. -/
abbrev Assignment := Key → Nat

/-- Modelled from the spec: VectorValues of the linear layer (declared outside
the source file), a displacement map for continuous variables. -/
abbrev VectorValues := List (Key × ℚ)

/-- The empty VectorValues, the zero displacement of EliminateHybrid's
empty_values. -/
def VectorValues.empty : VectorValues := []

/-- Modelled from the spec: a linear Gaussian factor of the linear layer
(declared outside the source file); this core observes only the continuous
keys it touches and its scalar residual energy function. -/
structure GaussianFactor where
  keys : List Key
  error : VectorValues → ℚ

/-- A GaussianFactorGraph: an ordered collection of factor handles; a handle
may be null (modelled as none), signaling an infeasible or absent factor. -/
abbrev GaussianFactorGraph := List (Option GaussianFactor)

/-- Modelled from the spec: a Gaussian conditional produced by the continuous
elimination oracle; this core observes only its key list (frontals followed
by separator). -/
structure GaussianConditional where
  keys : List Key
deriving DecidableEq

/-- Modelled from the spec: the DecisionTree primitive (declared outside the
source file) is an immutable function from assignments, restricted to a
tree-owned set of discrete keys, to leaf values. -/
structure DTree (V : Type) where
  keys : List DiscreteKey
  leaf : Assignment → V

/-- All assignments over a list of discrete keys, enumerated canonically
(each key's values in increasing order); this is the leaf enumeration of a
decision tree over those keys. -/
def allAssignments : List DiscreteKey → List Assignment
  | [] => [fun _ => 0]
  | k :: ks =>
    (List.range k.card).foldr
      (fun v acc =>
        ((allAssignments ks).map (fun a => Function.update a k.key v)) ++ acc)
      []

/-- Number of leaves of a decision tree: one per assignment over its keys. -/
def DTree.leafCount {V : Type} (t : DTree V) : Nat :=
  (allAssignments t.keys).length

/-- A DCGaussianMixtureFactor: continuous (separator) keys, declared discrete
keys, and a decision tree of single factor handles over those discrete keys. -/
structure DCGaussianMixtureFactor where
  keys : List Key
  discreteKeys : List DiscreteKey
  factors : DTree (Option GaussianFactor)

/-- An element of the dc sub-collection of a hybrid factor graph: either an
actual DCGaussianMixtureFactor or some other DCFactor that the dynamic
downcast in GaussianHybridFactorGraph::sum rejects. -/
inductive DCFactor where
  | mixture : DCGaussianMixtureFactor → DCFactor
  | other : Nat → DCFactor

/-- The dynamic downcast of GaussianHybridFactorGraph::sum: succeeds exactly
on mixture elements. -/
def asMixture : DCFactor → Option DCGaussianMixtureFactor
  | .mixture m => some m
  | .other _ => none

/-- A purely discrete factor; this core never inspects it, it is only handed
to the discrete elimination oracle. -/
structure DiscreteFactor where
  id : Nat
deriving DecidableEq

/-- GaussianHybridFactorGraph: a dc (mixture) sub-collection, a plain
continuous sub-collection and a discrete sub-collection. -/
structure GaussianHybridFactorGraph where
  dcGraph : List DCFactor
  gaussianGraph : List (Option GaussianFactor)
  discreteGraph : List DiscreteFactor

/-- The aggregate Sum = DCGaussianMixtureFactor::Sum: a decision tree of
GaussianFactorGraphs; none models the default-constructed, uninitialized
tree for which Sum::empty() is true. -/
abbrev Sum := Option (DTree GaussianFactorGraph)

/-- Discrete-key set of an aggregate; empty for the uninitialized aggregate. -/
def sumKeys : Sum → List DiscreteKey
  | none => []
  | some t => t.keys

/-- Leaf collection of an aggregate at an assignment, when initialized. -/
def sumLeaf : Sum → Assignment → Option GaussianFactorGraph
  | none, _ => none
  | some t, a => some (t.leaf a)

/-- Leaf count of an aggregate; 0 for the uninitialized aggregate. -/
def sumLeafCount : Sum → Nat
  | none => 0
  | some t => t.leafCount

/-- The static operator+=(Sum&, const GaussianFactor::shared_ptr&) of the
source: an uninitialized aggregate becomes a single-leaf tree whose one
collection holds just the factor handle; otherwise the handle is appended
to every leaf's collection via Sum::apply. -/
def foldPlain (s : Sum) (f : Option GaussianFactor) : Sum :=
  match s with
  | none => some ⟨[], fun _ => [f]⟩
  | some t => some ⟨t.keys, fun a => t.leaf a ++ [f]⟩

/-- Append a mixture leaf to a collection: the leaf value is a single
continuous factor or null, appended if non-null. -/
def maybeAppend (c : GaussianFactorGraph) (f : Option GaussianFactor) :
    GaussianFactorGraph :=
  match f with
  | none => c
  | some gf => c ++ [some gf]

/-- Modelled from the spec: operator+=(Sum&, const DCGaussianMixtureFactor&)
(declared outside the source file) is the generalized join: the aggregate's
key axes are aligned with the mixture factor's declared discrete keys,
producing a tree over the union of the key sets, and each combined leaf is
the aggregate leaf's collection with the mixture's leaf value appended if
non-null; the uninitialized aggregate acts as the single-leaf aggregate
with an empty collection and no keys. -/
def foldMixture (s : Sum) (m : DCGaussianMixtureFactor) : Sum :=
  let t := s.getD ⟨[], fun _ => []⟩
  some ⟨t.keys ∪ m.discreteKeys, fun a => maybeAppend (t.leaf a) (m.factors.leaf a)⟩

/-- Folding a list of mixture factors into the uninitialized aggregate, in
list order, as GaussianHybridFactorGraph::sum does for the dc graph. -/
def foldMixtures (ms : List DCGaussianMixtureFactor) : Sum :=
  ms.foldl foldMixture none

/-- The exact message of the runtime_error thrown by
GaussianHybridFactorGraph::sum on a failed downcast. -/
def typeMismatchMsg : String :=
  "GaussianHybridFactorGraph::sum can only handle DCGaussianMixtureFactors."

/-- The loop of GaussianHybridFactorGraph::sum over the dc graph: each
element is downcast to DCGaussianMixtureFactor and folded in; a failed
downcast throws a runtime_error. -/
def sumDC (s : Sum) : List DCFactor → Except String Sum
  | [] => .ok s
  | d :: rest =>
    match asMixture d with
    | some m => sumDC (foldMixture s m) rest
    | none => .error typeMismatchMsg

/-- GaussianHybridFactorGraph::sum: fold every dc factor (throwing on a
failed downcast), then fold every plain Gaussian factor. -/
def GaussianHybridFactorGraph.sum (g : GaussianHybridFactorGraph) :
    Except String Sum :=
  match sumDC none g.dcGraph with
  | .error e => .error e
  | .ok s => .ok (g.gaussianGraph.foldl foldPlain s)

/-- Modelled from the spec: HybridFactorGraph::discreteKeys is declared
outside the source file; per the spec the mixture conditional is indexed by
exactly the aggregate's discrete keys, the union of the discrete keys of the
graph's mixture factors, so a discrete key appearing in the graph but in no
mixture factor is excluded. -/
def GaussianHybridFactorGraph.discreteKeys (g : GaussianHybridFactorGraph) :
    List DiscreteKey :=
  g.dcGraph.foldl
    (fun acc d =>
      match d with
      | .mixture m => acc ∪ m.discreteKeys
      | .other _ => acc)
    []

/-- The aggregate tree of a graph whose sum is initialized; a dummy empty
tree otherwise (used only to name the tree in theorem statements). -/
def sumTree (g : GaussianHybridFactorGraph) : DTree GaussianFactorGraph :=
  match g.sum with
  | .ok (some t) => t
  | _ => ⟨[], fun _ => []⟩

/-- Modelled from the spec: the continuous elimination oracle
(EliminatePreferCholesky, declared outside the source file): one elimination
step on a collection with an ordering, yielding a Gaussian conditional and a
residual factor. -/
structure ContinuousOracle where
  elim : GaussianFactorGraph → List Key → GaussianConditional × GaussianFactor

/-- Modelled from the spec: the discrete elimination oracle (EliminateForMPE,
declared outside the source file), applied to a discrete sub-collection and
an ordering. -/
structure MPEConditional where
  id : Nat
deriving DecidableEq

/-- Result factor of the discrete elimination oracle. -/
structure MPEFactor where
  id : Nat
deriving DecidableEq

/-- Modelled from the spec: the type of the discrete elimination oracle. -/
abbrev MPEOracle := List DiscreteFactor → List Key → MPEConditional × MPEFactor

/-- The zeroOut lambda of EliminateHybrid: a collection containing at least
one null handle is replaced by the empty collection. -/
def zeroOut (gfg : GaussianFactorGraph) : GaussianFactorGraph :=
  if gfg.any (fun h => h.isNone) then [] else gfg

/-- The zeroed aggregate tree Sum(sum, zeroOut) of EliminateHybrid. -/
def zeroOutTree (t : DTree GaussianFactorGraph) : DTree GaussianFactorGraph :=
  ⟨t.keys, fun a => zeroOut (t.leaf a)⟩

/-- The eliminate lambda of EliminateHybrid, per leaf: an empty collection
yields (nullptr, nullptr); otherwise the continuous oracle is invoked. -/
def elimLeaf (o : ContinuousOracle) (ord : List Key)
    (g : GaussianFactorGraph) :
    Option GaussianConditional × Option GaussianFactor :=
  if g.isEmpty then (none, none)
  else
    let r := o.elim g ord
    (some r.1, some r.2)

/-- The by-reference accumulation of keysOfEliminated and keysOfSeparator
while the eliminate lambda is mapped across the leaves: an empty leaf is
skipped; a non-empty leaf sets each key vector from the oracle's result
if, and only if, that vector is still empty. -/
def scanKeys (o : ContinuousOracle) (ord : List Key) :
    List GaussianFactorGraph → List Key × List Key → List Key × List Key
  | [], st => st
  | g :: gs, st =>
    if g.isEmpty then scanKeys o ord gs st
    else
      let r := o.elim g ord
      scanKeys o ord gs
        (if st.1.isEmpty then r.1.keys else st.1,
         if st.2.isEmpty then r.2.keys else st.2)

/-- Final (keysOfEliminated, keysOfSeparator) after mapping the eliminate
lambda across all leaves of the zeroed aggregate, in canonical leaf order. -/
def keysOfElimSep (o : ContinuousOracle) (ord : List Key)
    (t : DTree GaussianFactorGraph) : List Key × List Key :=
  scanKeys o ord ((allAssignments t.keys).map t.leaf) ([], [])

/-- The factorError lambda of the empty-separator branch of EliminateHybrid:
a null factor handle yields 0.0, a non-null handle yields
exp(-error(factor, empty_values)); std::exp is passed as the parameter cexp
since floating point is modelled abstractly. -/
def factorError (cexp : ℚ → ℚ) : Option GaussianFactor → ℚ
  | none => 0
  | some f => cexp (-(f.error VectorValues.empty))

/-- The GaussianMixture conditional built by EliminateHybrid: number of
frontals, full key list, discrete keys and the per-hypothesis conditionals. -/
structure GaussianMixture where
  nrFrontals : Nat
  keys : List Key
  discreteKeys : List DiscreteKey
  conditionals : DTree (Option GaussianConditional)

/-- A DecisionTreeFactor: declared discrete keys and a potential tree. -/
structure DecisionTreeFactor where
  keys : List DiscreteKey
  tree : DTree ℚ

/-- The conditional half of EliminateHybrid's result. -/
inductive HybridConditional where
  | gaussianMixture : GaussianMixture → HybridConditional
  | discrete : MPEConditional → HybridConditional

/-- The factor half of EliminateHybrid's result. -/
inductive HybridFactor where
  | decisionTreeFactor : DecisionTreeFactor → HybridFactor
  | dcMixture : DCGaussianMixtureFactor → HybridFactor
  | discreteFactor : MPEFactor → HybridFactor

/-- The pair returned by EliminateHybrid. -/
abbrev HybridPair := HybridConditional × HybridFactor

/-- The continuous path of EliminateHybrid on an initialized aggregate tree:
zero out null-containing leaves, map the eliminate lambda across the leaves,
unzip, build the GaussianMixture, and build either the discrete potential
(empty separator) or the residual DCGaussianMixtureFactor. -/
def elimCore (cexp : ℚ → ℚ) (o : ContinuousOracle) (ord : List Key)
    (dkeys : List DiscreteKey) (t0 : DTree GaussianFactorGraph) : HybridPair :=
  if (keysOfElimSep o ord (zeroOutTree t0)).2.isEmpty then
    (.gaussianMixture
       ⟨ord.length, (keysOfElimSep o ord (zeroOutTree t0)).1, dkeys,
        ⟨t0.keys, fun a => (elimLeaf o ord (zeroOut (t0.leaf a))).1⟩⟩,
     .decisionTreeFactor
       ⟨dkeys,
        ⟨t0.keys, fun a => factorError cexp (elimLeaf o ord (zeroOut (t0.leaf a))).2⟩⟩)
  else
    (.gaussianMixture
       ⟨ord.length, (keysOfElimSep o ord (zeroOutTree t0)).1, dkeys,
        ⟨t0.keys, fun a => (elimLeaf o ord (zeroOut (t0.leaf a))).1⟩⟩,
     .dcMixture
       ⟨(keysOfElimSep o ord (zeroOutTree t0)).2, dkeys,
        ⟨t0.keys, fun a => (elimLeaf o ord (zeroOut (t0.leaf a))).2⟩⟩)

/-- EliminateHybrid: sum the factors (propagating the downcast error); if the
aggregate is uninitialized delegate to the discrete oracle on the discrete
sub-collection; otherwise run the continuous path. -/
def EliminateHybrid (cexp : ℚ → ℚ) (o : ContinuousOracle) (mpe : MPEOracle)
    (factors : GaussianHybridFactorGraph) (ordering : List Key) :
    Except String HybridPair :=
  match factors.sum with
  | .error e => .error e
  | .ok none =>
    let dbn := mpe factors.discreteGraph ordering
    .ok (.discrete dbn.1, .discreteFactor dbn.2)
  | .ok (some t0) => .ok (elimCore cexp o ordering factors.discreteKeys t0)

/-- Modelled from the spec: the linear solving oracle used by the
discretizer (GaussianFactorGraph::optimize and the residual-energy
evaluation at given values, declared outside the source file). -/
structure SolveOracle where
  optimize : GaussianFactorGraph → VectorValues
  errorAt : GaussianFactorGraph → VectorValues → ℚ

/-- Modelled from the spec: GaussianFactorGraph::probPrime (declared outside
the source file) evaluates the residual energy at the given values, the
negative log of the unnormalized peak density, not exponentiated. -/
def probPrime (so : SolveOracle) (g : GaussianFactorGraph)
    (v : VectorValues) : ℚ :=
  so.errorAt g v

/-- GaussianHybridFactorGraph::toDecisionTreeFactor: build the aggregate and
map each leaf collection to probPrime at the collection's least-squares
optimum; the mapping of an uninitialized aggregate dereferences a null root
in the original and is modelled as an error. -/
def GaussianHybridFactorGraph.toDecisionTreeFactor (so : SolveOracle)
    (g : GaussianHybridFactorGraph) : Except String DecisionTreeFactor :=
  match g.sum with
  | .error e => .error e
  | .ok none => .error "uninitialized decision tree"
  | .ok (some t) =>
    .ok ⟨g.discreteKeys,
         ⟨t.keys, fun a => probPrime so (t.leaf a) (so.optimize (t.leaf a))⟩⟩

/-- Potential leaf of the factor half of an EliminateHybrid result, when that
half is a DecisionTreeFactor. -/
def resultPotential : Except String HybridPair → Assignment → Option ℚ
  | .ok (_, .decisionTreeFactor d), a => some (d.tree.leaf a)
  | _, _ => none

/-- Key list of the GaussianMixture half of an EliminateHybrid result. -/
def mixKeys : Except String HybridPair → Option (List Key)
  | .ok (.gaussianMixture m, _) => some m.keys
  | _ => none

/-- Number of frontals of the GaussianMixture of an EliminateHybrid result. -/
def mixNrFrontals : Except String HybridPair → Option Nat
  | .ok (.gaussianMixture m, _) => some m.nrFrontals
  | _ => none

/-- Discrete keys of the GaussianMixture of an EliminateHybrid result. -/
def mixDiscreteKeys : Except String HybridPair → Option (List DiscreteKey)
  | .ok (.gaussianMixture m, _) => some m.discreteKeys
  | _ => none

/-- Conditional-tree leaf of the GaussianMixture of an EliminateHybrid
result, at an assignment. -/
def mixCondLeaf : Except String HybridPair → Assignment →
    Option (Option GaussianConditional)
  | .ok (.gaussianMixture m, _), a => some (m.conditionals.leaf a)
  | _, _ => none

/-- Potential leaf of a discretizer result at an assignment. -/
def dtfLeafAt : Except String DecisionTreeFactor → Assignment → Option ℚ
  | .ok d, a => some (d.tree.leaf a)
  | _, _ => none

/-- Leaf count of a discretizer result. -/
def dtfLeafCount : Except String DecisionTreeFactor → Option Nat
  | .ok d => some d.tree.leafCount
  | _ => none

/-- Union, as a finset, of the declared discrete keys of a list of mixture
factors. -/
def keyUnionFS (ms : List DCGaussianMixtureFactor) : Finset DiscreteKey :=
  ms.foldr (fun m acc => m.discreteKeys.toFinset ∪ acc) ∅

/-- Union, as a finset, of the declared discrete keys of the mixture elements
of a dc sub-collection (non-mixture elements contribute nothing). -/
def dcKeyUnionFS (dc : List DCFactor) : Finset DiscreteKey :=
  dc.foldr
    (fun d acc =>
      match d with
      | .mixture m => m.discreteKeys.toFinset ∪ acc
      | .other _ => acc)
    ∅

/-- Concrete continuous key used by the concrete evaluation scenarios. -/
def cK : Key := 0

/-- Concrete binary discrete key M1. -/
def mK : DiscreteKey := ⟨1, 2⟩

/-- Concrete binary discrete key M2. -/
def mK2 : DiscreteKey := ⟨2, 2⟩

/-- Concrete Gaussian factor with constant residual energy 4. -/
def gf0 : GaussianFactor := ⟨[cK], fun _ => 4⟩

/-- Concrete mixture factor over M1: a real factor under M1 = 0 and a null
handle under M1 = 1. -/
def mix0 : DCGaussianMixtureFactor :=
  ⟨[cK], [mK], ⟨[mK], fun a => if a 1 = 0 then some gf0 else none⟩⟩

/-- Concrete mixture factor over M2 with all-null leaves. -/
def mixB : DCGaussianMixtureFactor :=
  ⟨[cK], [mK2], ⟨[mK2], fun _ => none⟩⟩

/-- Concrete mixture factor over M1 with all-null leaves. -/
def mixNull : DCGaussianMixtureFactor :=
  ⟨[cK], [mK], ⟨[mK], fun _ => none⟩⟩

/-- Concrete hybrid graph holding exactly the mixture factor mix0. -/
def ghfg0 : GaussianHybridFactorGraph := ⟨[.mixture mix0], [], []⟩

/-- Concrete hybrid graph whose only mixture factor has all-null leaves. -/
def gAllNull : GaussianHybridFactorGraph := ⟨[.mixture mixNull], [], []⟩

/-- Concrete hybrid graph with a dc element that fails the downcast. -/
def gBadDC : GaussianHybridFactorGraph := ⟨[.other 0], [], []⟩

/-- Concrete hybrid graph with only discrete factors. -/
def gDiscOnly : GaussianHybridFactorGraph := ⟨[], [], [⟨7⟩]⟩

/-- Concrete hybrid graph with one plain Gaussian factor and nothing else. -/
def gPlain : GaussianHybridFactorGraph := ⟨[], [some gf0], []⟩

/-- Concrete single-leaf tree whose collection holds a null handle among
otherwise valid factors. -/
def tNull : DTree GaussianFactorGraph := ⟨[], fun _ => [some gf0, none]⟩

/-- Concrete continuous oracle: eliminates to a conditional over cK with an
empty-separator residual of constant energy 4. -/
def oracle0 : ContinuousOracle := ⟨fun _ _ => (⟨[cK]⟩, ⟨[], fun _ => 4⟩)⟩

/-- Concrete discrete oracle. -/
def mpe0 : MPEOracle := fun _ _ => (⟨3⟩, ⟨5⟩)

/-- Concrete stand-in for std::exp (the claims are structural in it). -/
def cexp0 : ℚ → ℚ := fun x => 1 + x

/-- Concrete solving oracle: the optimum is the zero displacement and the
residual energy is the collection's length. -/
def so0 : SolveOracle := ⟨fun _ => [], fun g _ => (g.length : ℚ)⟩

/-- The all-zero assignment. -/
def baseAssignment : Assignment := fun _ => 0

/-- The all-one assignment (selects M1 = 1, the null branch of mix0). -/
def asg1 : Assignment := fun _ => 1

/-- foldPlain never changes the discrete-key set of an aggregate. -/
lemma foldPlain_keys (s : Sum) (f : Option GaussianFactor) :
    sumKeys (foldPlain s f) = sumKeys s := by
  cases s <;> rfl

/-- Folding any list of plain factors never changes the key set. -/
lemma foldPlains_keys (l : List (Option GaussianFactor)) :
    ∀ s : Sum, sumKeys (l.foldl foldPlain s) = sumKeys s := by
  induction l with
  | nil => intro s; rfl
  | cons f rest ih =>
    intro s
    rw [List.foldl_cons, ih, foldPlain_keys]

/-- foldMixture joins the key axes: the new key list is the union. -/
lemma foldMixture_keys (s : Sum) (m : DCGaussianMixtureFactor) :
    sumKeys (foldMixture s m) = sumKeys s ∪ m.discreteKeys := by
  cases s <;> rfl

/-- keyUnionFS on nil. -/
lemma keyUnionFS_nil : keyUnionFS [] = ∅ := rfl

/-- keyUnionFS on cons. -/
lemma keyUnionFS_cons (m : DCGaussianMixtureFactor)
    (rest : List DCGaussianMixtureFactor) :
    keyUnionFS (m :: rest) = m.discreteKeys.toFinset ∪ keyUnionFS rest := rfl

/-- Membership in the union of the mixture factors' key sets. -/
lemma mem_keyUnionFS (ms : List DCGaussianMixtureFactor) (k : DiscreteKey) :
    k ∈ keyUnionFS ms ↔ ∃ m ∈ ms, k ∈ m.discreteKeys := by
  induction ms with
  | nil => simp [keyUnionFS_nil]
  | cons m rest ih =>
    simp [keyUnionFS_cons, Finset.mem_union, List.mem_toFinset, ih]

/-- Key set of a left fold of mixture factors over an arbitrary aggregate. -/
lemma foldMixtures_keys_fs (ms : List DCGaussianMixtureFactor) :
    ∀ s : Sum, (sumKeys (List.foldl foldMixture s ms)).toFinset =
      (sumKeys s).toFinset ∪ keyUnionFS ms := by
  induction ms with
  | nil => intro s; simp [keyUnionFS_nil]
  | cons m rest ih =>
    intro s
    rw [List.foldl_cons, ih (foldMixture s m), foldMixture_keys,
      List.toFinset_union, keyUnionFS_cons, Finset.union_assoc]

/-- dcKeyUnionFS on cons of a mixture. -/
lemma dcKeyUnionFS_cons_mixture (m : DCGaussianMixtureFactor)
    (rest : List DCFactor) :
    dcKeyUnionFS (.mixture m :: rest) =
      m.discreteKeys.toFinset ∪ dcKeyUnionFS rest := rfl

/-- dcKeyUnionFS on cons of a non-mixture element. -/
lemma dcKeyUnionFS_cons_other (n : Nat) (rest : List DCFactor) :
    dcKeyUnionFS (.other n :: rest) = dcKeyUnionFS rest := rfl

/-- The key set accumulated by the dc loop of sum is the union of the
downcast mixture factors' key sets. -/
lemma sumDC_keys_fs (dc : List DCFactor) :
    ∀ s s' : Sum, sumDC s dc = .ok s' →
      (sumKeys s').toFinset = (sumKeys s).toFinset ∪ dcKeyUnionFS dc := by
  induction dc with
  | nil =>
    intro s s' h
    injection h with h
    subst h
    simp [dcKeyUnionFS]
  | cons d rest ih =>
    intro s s' h
    cases d with
    | mixture m =>
      have h2 : sumDC (foldMixture s m) rest = .ok s' := h
      rw [ih (foldMixture s m) s' h2, foldMixture_keys, List.toFinset_union,
        dcKeyUnionFS_cons_mixture, Finset.union_assoc]
    | other n => cases h

/-- The graph's discreteKeys fold, over any accumulator. -/
lemma discreteKeysAux (dc : List DCFactor) :
    ∀ acc : List DiscreteKey,
      (dc.foldl
        (fun acc d =>
          match d with
          | .mixture m => acc ∪ m.discreteKeys
          | .other _ => acc)
        acc).toFinset = acc.toFinset ∪ dcKeyUnionFS dc := by
  induction dc with
  | nil => intro acc; simp [dcKeyUnionFS]
  | cons d rest ih =>
    intro acc
    cases d with
    | mixture m =>
      rw [List.foldl_cons]
      show (rest.foldl _ (acc ∪ m.discreteKeys)).toFinset = _
      rw [ih (acc ∪ m.discreteKeys), List.toFinset_union,
        dcKeyUnionFS_cons_mixture, Finset.union_assoc]
    | other n =>
      rw [List.foldl_cons]
      show (rest.foldl _ acc).toFinset = _
      rw [ih acc, dcKeyUnionFS_cons_other]

/-- discreteKeys of a graph, as a finset, is the union over its mixture
elements. -/
lemma discreteKeys_fs (g : GaussianHybridFactorGraph) :
    g.discreteKeys.toFinset = dcKeyUnionFS g.dcGraph := by
  unfold GaussianHybridFactorGraph.discreteKeys
  rw [discreteKeysAux g.dcGraph []]
  simp

/-- When sum succeeds with an initialized aggregate, the aggregate's key set
equals the graph's discreteKeys as a set. -/
lemma sum_keys_eq_graphKeys (g : GaussianHybridFactorGraph)
    (t0 : DTree GaussianFactorGraph) (h : g.sum = .ok (some t0)) :
    t0.keys.toFinset = g.discreteKeys.toFinset := by
  unfold GaussianHybridFactorGraph.sum at h
  cases hs : sumDC none g.dcGraph with
  | error e => rw [hs] at h; cases h
  | ok s =>
    rw [hs] at h
    injection h with h
    have h3 : sumKeys (some t0) = sumKeys s := by
      rw [← h, foldPlains_keys]
    have h4 := sumDC_keys_fs g.dcGraph none s hs
    show (sumKeys (some t0)).toFinset = _
    rw [h3, h4, discreteKeys_fs]
    simp [sumKeys]

/-- scanKeys leaves its state untouched when every leaf is empty. -/
lemma scanKeys_nilLeaves (o : ContinuousOracle) (ord : List Key) :
    ∀ (L : List GaussianFactorGraph) (st : List Key × List Key),
      (∀ g ∈ L, g = []) → scanKeys o ord L st = st := by
  intro L
  induction L with
  | nil => intro st _; rfl
  | cons g gs ih =>
    intro st h
    have hg : g = [] := h g (List.mem_cons_self _ _)
    subst hg
    show scanKeys o ord gs st = st
    exact ih st (fun g' hg' => h g' (List.mem_cons_of_mem _ hg'))

/-- scanKeys is a no-op once both key vectors hold the common key sets. -/
lemma scanKeys_fixed (o : ContinuousOracle) (ord ke ks : List Key) :
    ∀ L : List GaussianFactorGraph,
      (∀ g ∈ L, g ≠ [] →
        (o.elim g ord).1.keys = ke ∧ (o.elim g ord).2.keys = ks) →
      scanKeys o ord L (ke, ks) = (ke, ks) := by
  intro L
  induction L with
  | nil => intro _; rfl
  | cons g gs ih =>
    intro h
    by_cases hg : g.isEmpty = true
    · unfold scanKeys
      rw [if_pos hg]
      exact ih (fun g' hg' => h g' (List.mem_cons_of_mem _ hg'))
    · have hne : g ≠ [] := by
        intro he
        subst he
        exact hg rfl
      obtain ⟨h1, h2⟩ := h g (List.mem_cons_self _ _) hne
      unfold scanKeys
      rw [if_neg hg]
      show scanKeys o ord gs
        (if ke.isEmpty then (o.elim g ord).1.keys else ke,
         if ks.isEmpty then (o.elim g ord).2.keys else ks) = (ke, ks)
      have e1 : (if ke.isEmpty then (o.elim g ord).1.keys else ke) = ke := by
        by_cases hke : ke.isEmpty = true
        · rw [if_pos hke, h1]
        · rw [if_neg hke]
      have e2 : (if ks.isEmpty then (o.elim g ord).2.keys else ks) = ks := by
        by_cases hks : ks.isEmpty = true
        · rw [if_pos hks, h2]
        · rw [if_neg hks]
      rw [e1, e2]
      exact ih (fun g' hg' => h g' (List.mem_cons_of_mem _ hg'))

/-- Starting from empty key vectors, scanKeys lands on the common key sets
provided some leaf is non-empty and all non-empty leaves agree. -/
lemma scanKeys_sets (o : ContinuousOracle) (ord ke ks : List Key) :
    ∀ L : List GaussianFactorGraph,
      (∀ g ∈ L, g ≠ [] →
        (o.elim g ord).1.keys = ke ∧ (o.elim g ord).2.keys = ks) →
      (∃ g ∈ L, g ≠ []) →
      scanKeys o ord L ([], []) = (ke, ks) := by
  intro L
  induction L with
  | nil =>
    intro _ hx
    obtain ⟨g, hg, _⟩ := hx
    cases hg
  | cons g gs ih =>
    intro h hx
    by_cases hg : g.isEmpty = true
    · have hgeq : g = [] := by
        cases g with
        | nil => rfl
        | cons x xs => cases hg
      unfold scanKeys
      rw [if_pos hg]
      apply ih (fun g' hg' => h g' (List.mem_cons_of_mem _ hg'))
      obtain ⟨g', hg', hne⟩ := hx
      rcases List.mem_cons.mp hg' with he | hm
      · exact absurd hgeq (he ▸ hne)
      · exact ⟨g', hm, hne⟩
    · have hne : g ≠ [] := by
        intro he
        subst he
        exact hg rfl
      obtain ⟨h1, h2⟩ := h g (List.mem_cons_self _ _) hne
      unfold scanKeys
      rw [if_neg hg]
      show scanKeys o ord gs ((o.elim g ord).1.keys, (o.elim g ord).2.keys) =
        (ke, ks)
      rw [h1, h2]
      exact scanKeys_fixed o ord ke ks gs
        (fun g' hg' => h g' (List.mem_cons_of_mem _ hg'))

/-- keysOfEliminated and keysOfSeparator when all feasible hypotheses agree. -/
lemma keysOfElimSep_eq (o : ContinuousOracle) (ord : List Key)
    (t0 : DTree GaussianFactorGraph) (ke ks : List Key)
    (hk : ∀ a : Assignment, zeroOut (t0.leaf a) ≠ [] →
      (o.elim (zeroOut (t0.leaf a)) ord).1.keys = ke ∧
      (o.elim (zeroOut (t0.leaf a)) ord).2.keys = ks)
    (hx : ∃ a ∈ allAssignments t0.keys, zeroOut (t0.leaf a) ≠ []) :
    keysOfElimSep o ord (zeroOutTree t0) = (ke, ks) := by
  unfold keysOfElimSep zeroOutTree
  apply scanKeys_sets
  · intro g' hg' hne
    obtain ⟨a, _, hae⟩ := List.mem_map.mp hg'
    subst hae
    exact hk a hne
  · obtain ⟨a, ha, hne⟩ := hx
    exact ⟨zeroOut (t0.leaf a), List.mem_map.mpr ⟨a, ha, rfl⟩, hne⟩

/-- EliminateHybrid on a graph whose aggregate is initialized reduces to the
continuous path elimCore. -/
lemma eliminateHybrid_ok_some (cexp : ℚ → ℚ) (o : ContinuousOracle)
    (mpe : MPEOracle) (g : GaussianHybridFactorGraph) (ord : List Key)
    (t0 : DTree GaussianFactorGraph) (h : g.sum = .ok (some t0)) :
    EliminateHybrid cexp o mpe g ord =
      .ok (elimCore cexp o ord g.discreteKeys t0) := by
  unfold EliminateHybrid
  rw [h]

/-- elimCore takes the empty-separator branch when keysOfSeparator ends
empty. -/
lemma elimCore_eq_sep_nil (cexp : ℚ → ℚ) (o : ContinuousOracle)
    (ord : List Key) (dkeys : List DiscreteKey)
    (t0 : DTree GaussianFactorGraph) (ke : List Key)
    (h : keysOfElimSep o ord (zeroOutTree t0) = (ke, [])) :
    elimCore cexp o ord dkeys t0 =
      (.gaussianMixture
         ⟨ord.length, ke, dkeys,
          ⟨t0.keys, fun a => (elimLeaf o ord (zeroOut (t0.leaf a))).1⟩⟩,
       .decisionTreeFactor
         ⟨dkeys,
          ⟨t0.keys,
           fun a => factorError cexp (elimLeaf o ord (zeroOut (t0.leaf a))).2⟩⟩) := by
  unfold elimCore
  rw [h]
  rfl

/-- elimCore takes the residual-mixture branch when keysOfSeparator ends
non-empty. -/
lemma elimCore_eq_sep_cons (cexp : ℚ → ℚ) (o : ContinuousOracle)
    (ord : List Key) (dkeys : List DiscreteKey)
    (t0 : DTree GaussianFactorGraph) (ke : List Key) (k : Key) (ks : List Key)
    (h : keysOfElimSep o ord (zeroOutTree t0) = (ke, k :: ks)) :
    elimCore cexp o ord dkeys t0 =
      (.gaussianMixture
         ⟨ord.length, ke, dkeys,
          ⟨t0.keys, fun a => (elimLeaf o ord (zeroOut (t0.leaf a))).1⟩⟩,
       .dcMixture
         ⟨k :: ks, dkeys,
          ⟨t0.keys, fun a => (elimLeaf o ord (zeroOut (t0.leaf a))).2⟩⟩) := by
  unfold elimCore
  rw [h]
  rfl

/-- C6: foldPlain applied to the empty/uninitialized aggregate produces a
single-leaf aggregate with no discrete keys whose one collection contains
exactly the given factor; applied to an initialized aggregate it appends the
factor to every leaf's collection while leaving the key set and leaf count
unchanged. -/
theorem foldPlain_broadcast :
    ∀ f : Option GaussianFactor,
      (sumKeys (foldPlain none f) = [] ∧
        sumLeafCount (foldPlain none f) = 1 ∧
        ∀ a, sumLeaf (foldPlain none f) a = some [f]) ∧
      ∀ t : DTree GaussianFactorGraph,
        sumKeys (foldPlain (some t) f) = t.keys ∧
        sumLeafCount (foldPlain (some t) f) = t.leafCount ∧
        ∀ a, sumLeaf (foldPlain (some t) f) a = some (t.leaf a ++ [f]) := by
  intro f
  exact ⟨⟨rfl, rfl, fun a => rfl⟩, fun t => ⟨rfl, rfl, fun a => rfl⟩⟩

/-- C9: sum, toDecisionTreeFactor and EliminateHybrid are pure functions of
their inputs: two runs on equal (graph, ordering) inputs produce equal
outputs (mutation-freedom of the input graph holds by construction in this
functional embedding). -/
theorem hybrid_core_deterministic :
    ∀ (cexp : ℚ → ℚ) (o : ContinuousOracle) (mpe : MPEOracle)
      (so : SolveOracle) (g₁ g₂ : GaussianHybridFactorGraph)
      (ord₁ ord₂ : List Key),
      g₁ = g₂ → ord₁ = ord₂ →
      g₁.sum = g₂.sum ∧
      g₁.toDecisionTreeFactor so = g₂.toDecisionTreeFactor so ∧
      EliminateHybrid cexp o mpe g₁ ord₁ = EliminateHybrid cexp o mpe g₂ ord₂ := by
  intro cexp o mpe so g₁ g₂ ord₁ ord₂ hg ho
  subst hg
  subst ho
  exact ⟨rfl, rfl, rfl⟩

/-- Witness for C9 at the concrete scenario. -/
theorem hybrid_core_deterministic_witness :
    ghfg0.sum = ghfg0.sum ∧
    EliminateHybrid cexp0 oracle0 mpe0 ghfg0 [cK] =
      EliminateHybrid cexp0 oracle0 mpe0 ghfg0 [cK] := by
  have H := hybrid_core_deterministic cexp0 oracle0 mpe0 so0 ghfg0 ghfg0
    [cK] [cK] rfl rfl
  exact ⟨H.1, H.2.2⟩

/-- C4: for every hypothesis, a leaf collection containing a null factor
handle is replaced by the empty collection before per-hypothesis
elimination, empty collections map to (null, null), and a zeroed collection
never contains a null handle, so no null handle reaches the continuous
oracle. -/
theorem zeroOut_null_safety :
    ∀ (o : ContinuousOracle) (ord : List Key)
      (t : DTree GaussianFactorGraph) (a : Assignment),
      ((∃ f ∈ t.leaf a, f = none) →
        zeroOut (t.leaf a) = [] ∧
        elimLeaf o ord (zeroOut (t.leaf a)) = (none, none)) ∧
      (∀ f ∈ zeroOut (t.leaf a), f ≠ none) ∧
      (zeroOut (t.leaf a) = [] →
        elimLeaf o ord (zeroOut (t.leaf a)) = (none, none)) := by
  intro o ord t a
  refine ⟨?_, ?_, ?_⟩
  · rintro ⟨f, hf, hfn⟩
    have hz : zeroOut (t.leaf a) = [] := by
      unfold zeroOut
      rw [if_pos]
      rw [List.any_eq_true]
      exact ⟨f, hf, by rw [hfn]; rfl⟩
    rw [hz]
    exact ⟨rfl, rfl⟩
  · intro f hf
    unfold zeroOut at hf
    by_cases h : (t.leaf a).any (fun h => h.isNone) = true
    · rw [if_pos h] at hf
      cases hf
    · rw [if_neg h] at hf
      intro hfn
      apply h
      rw [List.any_eq_true]
      exact ⟨f, hf, by rw [hfn]; rfl⟩
  · intro hz
    rw [hz]
    rfl

/-- Witness for C4: a collection with a null among valid factors is zeroed
and eliminates to (null, null). -/
theorem zeroOut_null_safety_witness :
    zeroOut (tNull.leaf baseAssignment) = [] ∧
    elimLeaf oracle0 [cK] (zeroOut (tNull.leaf baseAssignment)) =
      (none, none) :=
  (zeroOut_null_safety oracle0 [cK] tNull baseAssignment).1
    ⟨none, by show (none : Option GaussianFactor) ∈ [some gf0, none]; simp, rfl⟩

/-- C5: when the aggregate built by sum is empty, EliminateHybrid delegates
to the discrete MPE oracle on the graph's discrete sub-collection with the
same ordering and returns its pair unchanged. -/
theorem eliminateHybrid_fallback :
    ∀ (cexp : ℚ → ℚ) (o : ContinuousOracle) (mpe : MPEOracle)
      (g : GaussianHybridFactorGraph) (ord : List Key),
      g.sum = .ok none →
      EliminateHybrid cexp o mpe g ord =
        .ok (.discrete (mpe g.discreteGraph ord).1,
             .discreteFactor (mpe g.discreteGraph ord).2) := by
  intro cexp o mpe g ord h
  unfold EliminateHybrid
  rw [h]

/-- Witness for C5 on a graph holding only discrete factors. -/
theorem eliminateHybrid_fallback_witness :
    gDiscOnly.sum = .ok none ∧
    EliminateHybrid cexp0 oracle0 mpe0 gDiscOnly [cK] =
      .ok (.discrete (mpe0 gDiscOnly.discreteGraph [cK]).1,
           .discreteFactor (mpe0 gDiscOnly.discreteGraph [cK]).2) :=
  ⟨rfl, eliminateHybrid_fallback cexp0 oracle0 mpe0 gDiscOnly [cK] rfl⟩

/-- The dc loop of sum throws exactly when some element fails the downcast. -/
lemma sumDC_error_iff (dc : List DCFactor) :
    ∀ s : Sum,
      (sumDC s dc = .error typeMismatchMsg ↔ ∃ d ∈ dc, asMixture d = none) := by
  induction dc with
  | nil => intro s; simp [sumDC]
  | cons d rest ih =>
    intro s
    cases d with
    | mixture m => simp [sumDC, asMixture, ih]
    | other n => simp [sumDC, asMixture]

/-- The dc loop of sum folds the downcast mixtures in order when every
downcast succeeds. -/
lemma sumDC_all_mixtures (dc : List DCFactor) :
    ∀ s : Sum,
      (∀ d ∈ dc, (asMixture d).isSome) →
      sumDC s dc = .ok (List.foldl foldMixture s (dc.filterMap asMixture)) := by
  induction dc with
  | nil => intro s _; rfl
  | cons d rest ih =>
    intro s h
    cases d with
    | mixture m =>
      have := ih (foldMixture s m)
        (fun d hd => h d (List.mem_cons_of_mem _ hd))
      simpa [sumDC, asMixture, List.filterMap_cons] using this
    | other n =>
      have := h (.other n) (List.mem_cons_self _ _)
      simp [asMixture] at this

/-- C8: sum fails with the TypeMismatch runtime_error exactly when some dc
element cannot be downcast to DCGaussianMixtureFactor; when every element
downcasts, sum completes by folding all mixture factors and then all plain
continuous factors. -/
theorem sum_typeMismatch :
    ∀ g : GaussianHybridFactorGraph,
      (g.sum = .error typeMismatchMsg ↔ ∃ d ∈ g.dcGraph, asMixture d = none) ∧
      ((∀ d ∈ g.dcGraph, (asMixture d).isSome) →
        g.sum = .ok (g.gaussianGraph.foldl foldPlain
          (foldMixtures (g.dcGraph.filterMap asMixture)))) := by
  intro g
  constructor
  · unfold GaussianHybridFactorGraph.sum
    rw [← sumDC_error_iff g.dcGraph none]
    cases hs : sumDC none g.dcGraph with
    | error e => simp
    | ok s => simp
  · intro h
    unfold GaussianHybridFactorGraph.sum
    rw [sumDC_all_mixtures g.dcGraph none h]
    rfl

/-- Witness for C8: a failing downcast throws, a well-formed graph folds. -/
theorem sum_typeMismatch_witness :
    gBadDC.sum = .error typeMismatchMsg ∧
    ghfg0.sum = .ok (ghfg0.gaussianGraph.foldl foldPlain
      (foldMixtures (ghfg0.dcGraph.filterMap asMixture))) := by
  constructor
  · exact (sum_typeMismatch gBadDC).1.mpr
      ⟨.other 0, by show DCFactor.other 0 ∈ [DCFactor.other 0]; simp, rfl⟩
  · apply (sum_typeMismatch ghfg0).2
    intro d hd
    have : d = .mixture mix0 := by
      have hd2 : d ∈ [DCFactor.mixture mix0] := hd
      simpa using hd2
    rw [this]
    rfl

/-- C7: for every sequence of mixture-factor folds, the aggregate's
discrete-key set equals the union of the folded mixture factors' discrete
keys, independently of the fold order. -/
theorem sum_keyset_union :
    (∀ ms : List DCGaussianMixtureFactor,
      (sumKeys (foldMixtures ms)).toFinset = keyUnionFS ms) ∧
    (∀ ms₁ ms₂ : List DCGaussianMixtureFactor, ms₁.Perm ms₂ →
      (sumKeys (foldMixtures ms₁)).toFinset =
        (sumKeys (foldMixtures ms₂)).toFinset) := by
  have base : ∀ ms : List DCGaussianMixtureFactor,
      (sumKeys (foldMixtures ms)).toFinset = keyUnionFS ms := by
    intro ms
    unfold foldMixtures
    rw [foldMixtures_keys_fs]
    simp [sumKeys]
  refine ⟨base, ?_⟩
  intro ms₁ ms₂ hperm
  rw [base, base]
  ext k
  rw [mem_keyUnionFS, mem_keyUnionFS]
  constructor
  · rintro ⟨m, hm, hk⟩
    exact ⟨m, hperm.mem_iff.mp hm, hk⟩
  · rintro ⟨m, hm, hk⟩
    exact ⟨m, hperm.mem_iff.mpr hm, hk⟩

/-- Witness for C7 on two mixture factors folded in both orders. -/
theorem sum_keyset_union_witness :
    (sumKeys (foldMixtures [mix0, mixB])).toFinset = keyUnionFS [mix0, mixB] ∧
    (sumKeys (foldMixtures [mixB, mix0])).toFinset =
      (sumKeys (foldMixtures [mix0, mixB])).toFinset :=
  ⟨sum_keyset_union.1 [mix0, mixB],
   sum_keyset_union.2 [mixB, mix0] [mix0, mixB] (List.Perm.swap mix0 mixB [])⟩

/-- C1 (counterexample): in the concrete scenario the residual leaf under
M1 = 1 is a null handle, yet the empty-separator branch maps it to the
potential 0.0, not 1.0 as the claim states. -/
theorem eliminateHybrid_null_leaf_zero_ce :
    (elimLeaf oracle0 [cK] (zeroOut ((sumTree ghfg0).leaf asg1))).2 = none ∧
    resultPotential (EliminateHybrid cexp0 oracle0 mpe0 ghfg0 [cK]) asg1 =
      some 0 ∧
    (0 : ℚ) ≠ 1 := by
  refine ⟨rfl, rfl, by norm_num⟩

/-- C1 (amended): when the separator key set is empty, the residual-factor
tree is converted to a discrete potential by mapping each leaf through
potential = 0.0 if the leaf's factor is null and exp(-error(factor,
zero-displacement)) otherwise. -/
theorem eliminateHybrid_potential_leaves (cexp : ℚ → ℚ)
    (o : ContinuousOracle) (mpe : MPEOracle) (g : GaussianHybridFactorGraph)
    (ord : List Key) (t0 : DTree GaussianFactorGraph)
    (h1 : g.sum = .ok (some t0))
    (h2 : (keysOfElimSep o ord (zeroOutTree t0)).2 = []) :
    (∀ a, resultPotential (EliminateHybrid cexp o mpe g ord) a =
      some (factorError cexp (elimLeaf o ord (zeroOut (t0.leaf a))).2)) ∧
    factorError cexp none = 0 ∧
    ∀ f : GaussianFactor,
      factorError cexp (some f) = cexp (-(f.error VectorValues.empty)) := by
  refine ⟨?_, rfl, fun f => rfl⟩
  intro a
  rw [eliminateHybrid_ok_some cexp o mpe g ord t0 h1]
  have hp : keysOfElimSep o ord (zeroOutTree t0) =
      ((keysOfElimSep o ord (zeroOutTree t0)).1, []) := by
    rw [← h2]
  rw [elimCore_eq_sep_nil cexp o ord g.discreteKeys t0 _ hp]
  rfl

/-- Witness for C1's amended theorem at the concrete scenario. -/
theorem eliminateHybrid_potential_leaves_witness :
    ghfg0.sum = .ok (some (sumTree ghfg0)) ∧
    resultPotential (EliminateHybrid cexp0 oracle0 mpe0 ghfg0 [cK]) asg1 =
      some (factorError cexp0
        (elimLeaf oracle0 [cK] (zeroOut ((sumTree ghfg0).leaf asg1))).2) :=
  ⟨rfl,
   (eliminateHybrid_potential_leaves cexp0 oracle0 mpe0 ghfg0 [cK]
     (sumTree ghfg0) rfl rfl).1 asg1⟩

/-- C2: the discretizer maps each leaf collection of the aggregate to
probPrime at the collection's least-squares optimum, the residual energy
there, not exponentiated; a zero-discrete-key aggregate yields a one-leaf
potential. -/
theorem toDecisionTreeFactor_score (so : SolveOracle)
    (g : GaussianHybridFactorGraph) (t0 : DTree GaussianFactorGraph)
    (h1 : g.sum = .ok (some t0)) :
    (∀ a, dtfLeafAt (g.toDecisionTreeFactor so) a =
      some (so.errorAt (t0.leaf a) (so.optimize (t0.leaf a)))) ∧
    (∀ (gr : GaussianFactorGraph) (v : VectorValues),
      probPrime so gr v = so.errorAt gr v) ∧
    (t0.keys = [] → dtfLeafCount (g.toDecisionTreeFactor so) = some 1) := by
  have hred : g.toDecisionTreeFactor so =
      .ok ⟨g.discreteKeys,
           ⟨t0.keys,
            fun a => probPrime so (t0.leaf a) (so.optimize (t0.leaf a))⟩⟩ := by
    unfold GaussianHybridFactorGraph.toDecisionTreeFactor
    rw [h1]
  refine ⟨fun a => ?_, fun gr v => rfl, fun hk => ?_⟩
  · rw [hred]
    rfl
  · rw [hred]
    show some (allAssignments t0.keys).length = some 1
    rw [hk]
    rfl

/-- Witness for C2 on a graph with one plain factor (zero discrete keys). -/
theorem toDecisionTreeFactor_score_witness :
    gPlain.sum = .ok (some (sumTree gPlain)) ∧
    dtfLeafAt (gPlain.toDecisionTreeFactor so0) baseAssignment = some 1 ∧
    dtfLeafCount (gPlain.toDecisionTreeFactor so0) = some 1 := by
  have H := toDecisionTreeFactor_score so0 gPlain (sumTree gPlain) rfl
  refine ⟨rfl, ?_, H.2.2 rfl⟩
  rw [H.1 baseAssignment]
  decide

/-- C3: the mixture conditional built by EliminateHybrid has numFrontals
equal to the ordering's size, key list equal to the eliminated keys followed
by the separator keys (whose set is their union), and is indexed by the
graph's discreteKeys, which equal the aggregate's discrete keys as a set. -/
theorem eliminateHybrid_mixture_conditional (cexp : ℚ → ℚ)
    (o : ContinuousOracle) (mpe : MPEOracle) (g : GaussianHybridFactorGraph)
    (ord : List Key) (t0 : DTree GaussianFactorGraph) (sep : List Key)
    (h1 : g.sum = .ok (some t0))
    (hk : ∀ a : Assignment, zeroOut (t0.leaf a) ≠ [] →
      (o.elim (zeroOut (t0.leaf a)) ord).1.keys = ord ++ sep ∧
      (o.elim (zeroOut (t0.leaf a)) ord).2.keys = sep)
    (hx : ∃ a ∈ allAssignments t0.keys, zeroOut (t0.leaf a) ≠ []) :
    mixNrFrontals (EliminateHybrid cexp o mpe g ord) = some ord.length ∧
    mixKeys (EliminateHybrid cexp o mpe g ord) = some (ord ++ sep) ∧
    (mixKeys (EliminateHybrid cexp o mpe g ord)).map List.toFinset =
      some (ord.toFinset ∪ sep.toFinset) ∧
    mixDiscreteKeys (EliminateHybrid cexp o mpe g ord) = some g.discreteKeys ∧
    (mixDiscreteKeys (EliminateHybrid cexp o mpe g ord)).map List.toFinset =
      some t0.keys.toFinset := by
  have hscan := keysOfElimSep_eq o ord t0 (ord ++ sep) sep hk hx
  have hdk := sum_keys_eq_graphKeys g t0 h1
  rw [eliminateHybrid_ok_some cexp o mpe g ord t0 h1]
  cases sep with
  | nil =>
    rw [elimCore_eq_sep_nil cexp o ord g.discreteKeys t0 (ord ++ []) hscan]
    refine ⟨rfl, rfl, ?_, rfl, ?_⟩
    · show some (ord ++ ([] : List Key)).toFinset =
        some (ord.toFinset ∪ ([] : List Key).toFinset)
      rw [List.toFinset_append]
    · show some g.discreteKeys.toFinset = some t0.keys.toFinset
      rw [hdk]
  | cons k ks =>
    rw [elimCore_eq_sep_cons cexp o ord g.discreteKeys t0 (ord ++ k :: ks)
      k ks hscan]
    refine ⟨rfl, rfl, ?_, rfl, ?_⟩
    · show some (ord ++ k :: ks).toFinset =
        some (ord.toFinset ∪ (k :: ks).toFinset)
      rw [List.toFinset_append]
    · show some g.discreteKeys.toFinset = some t0.keys.toFinset
      rw [hdk]

/-- Witness for C3 at the concrete scenario: one frontal, empty separator,
discrete keys exactly those of the single mixture factor. -/
theorem eliminateHybrid_mixture_conditional_witness :
    ghfg0.sum = .ok (some (sumTree ghfg0)) ∧
    mixNrFrontals (EliminateHybrid cexp0 oracle0 mpe0 ghfg0 [cK]) = some 1 ∧
    mixKeys (EliminateHybrid cexp0 oracle0 mpe0 ghfg0 [cK]) = some [cK] ∧
    mixDiscreteKeys (EliminateHybrid cexp0 oracle0 mpe0 ghfg0 [cK]) =
      some ghfg0.discreteKeys := by
  have H := eliminateHybrid_mixture_conditional cexp0 oracle0 mpe0 ghfg0
    [cK] (sumTree ghfg0) [] rfl (fun a _ => ⟨rfl, rfl⟩)
    ⟨Function.update baseAssignment 1 0, List.mem_cons_self _ _,
     List.cons_ne_nil _ _⟩
  exact ⟨rfl, H.1, H.2.1, H.2.2.2.1⟩

/-- C10: when the aggregate is initialized but every hypothesis's collection
is empty after null-normalization, EliminateHybrid does not fail: the key
vectors stay empty, the mixture conditional is built over an empty key list
with an all-null conditional tree, and the empty-separator branch produces a
discrete potential whose every leaf is 0.0. -/
theorem eliminateHybrid_all_null (cexp : ℚ → ℚ) (o : ContinuousOracle)
    (mpe : MPEOracle) (g : GaussianHybridFactorGraph) (ord : List Key)
    (t0 : DTree GaussianFactorGraph)
    (h1 : g.sum = .ok (some t0))
    (h2 : ∀ a : Assignment, zeroOut (t0.leaf a) = []) :
    mixKeys (EliminateHybrid cexp o mpe g ord) = some [] ∧
    mixNrFrontals (EliminateHybrid cexp o mpe g ord) = some ord.length ∧
    mixDiscreteKeys (EliminateHybrid cexp o mpe g ord) = some g.discreteKeys ∧
    (∀ a, mixCondLeaf (EliminateHybrid cexp o mpe g ord) a = some none) ∧
    (∀ a, resultPotential (EliminateHybrid cexp o mpe g ord) a = some 0) := by
  have hscan : keysOfElimSep o ord (zeroOutTree t0) = ([], []) := by
    unfold keysOfElimSep
    apply scanKeys_nilLeaves
    intro g' hg'
    obtain ⟨a, _, hae⟩ := List.mem_map.mp hg'
    rw [← hae]
    exact h2 a
  rw [eliminateHybrid_ok_some cexp o mpe g ord t0 h1]
  rw [elimCore_eq_sep_nil cexp o ord g.discreteKeys t0 [] hscan]
  refine ⟨rfl, rfl, rfl, fun a => ?_, fun a => ?_⟩
  · show some ((elimLeaf o ord (zeroOut (t0.leaf a))).1 :
      Option GaussianConditional) = some none
    rw [h2 a]
    rfl
  · show some (factorError cexp (elimLeaf o ord (zeroOut (t0.leaf a))).2) =
      some 0
    rw [h2 a]
    rfl

/-- Witness for C10 on a graph whose single mixture factor has all-null
leaves. -/
theorem eliminateHybrid_all_null_witness :
    gAllNull.sum = .ok (some (sumTree gAllNull)) ∧
    mixKeys (EliminateHybrid cexp0 oracle0 mpe0 gAllNull [cK]) = some [] ∧
    mixCondLeaf (EliminateHybrid cexp0 oracle0 mpe0 gAllNull [cK])
      baseAssignment = some none ∧
    resultPotential (EliminateHybrid cexp0 oracle0 mpe0 gAllNull [cK])
      baseAssignment = some 0 := by
  have H := eliminateHybrid_all_null cexp0 oracle0 mpe0 gAllNull [cK]
    (sumTree gAllNull) rfl (fun a => rfl)
  exact ⟨rfl, H.1, H.2.2.2.1 baseAssignment, H.2.2.2.2 baseAssignment⟩

end gtsam
